import Mathlib

/-
Verification of the heartlib generation-job orchestration subsystem.

The repository's visible source is the web frontend (types.ts, the API client,
and the React components).  The orchestration core itself (admission queue,
single-slot worker loop, cancellation protocol, history store) is described by
the specification; its state machine is modelled here from the spec and the
frontend-visible contract, and the frontend's own pure computations
(QueueItemCard's progress percentage) are embedded directly from the source.
-/

namespace Heartlib

/-- Job status union, embedded from
src/web/frontend/src/types.ts line 1:
GenerationStatus = pending | processing | completed | failed | cancelled. -/
inductive GenerationStatus where
  | pending
  | processing
  | completed
  | failed
  | cancelled
deriving DecidableEq, Repr

/-- Modelled from the spec (section 3): the unit of work.  Carries the id,
owner, immutable parameter snapshot (title, lyrics, tags), status, progress
pair, creation timestamp and failure reason. -/
structure Job where
  id : Nat
  owner : Nat
  title : Option String
  lyrics : String
  tags : String
  status : GenerationStatus
  progress : Nat
  totalFrames : Nat
  createdAt : Nat
  failureReason : Option String
deriving DecidableEq, Repr

/-- Queue entry shape, embedded from src/web/frontend/src/types.ts
lines 19-28 (QueueItem). -/
structure QueueItem where
  id : Nat
  title : Option String
  status : GenerationStatus
  progress : Nat
  total_frames : Nat
  created_at : Nat
  lyrics : String
  tags : String
deriving DecidableEq, Repr

/-- Queue snapshot shape, embedded from src/web/frontend/src/types.ts
lines 30-33 (QueueStatus): a list of items plus a single nullable
active-job identifier. -/
structure QueueStatus where
  items : List QueueItem
  active_id : Option Nat
deriving DecidableEq, Repr

/-- Progress event shape, embedded from src/web/frontend/src/types.ts
lines 55-61 (ProgressUpdate). -/
structure ProgressUpdate where
  id : Nat
  status : GenerationStatus
  progress : Nat
  total_frames : Nat
deriving DecidableEq, Repr

/-- Modelled from the spec (sections 4.1, 4.2, 5): the orchestration state —
the job table, the FIFO admission queue of pending ids, the single nullable
active-job id, the cancellation flag for the active job, the recorded order
in which jobs entered processing, the published progress events, the next
fresh id and a logical clock. -/
structure SysState where
  jobs : List Job
  queue : List Nat
  activeId : Option Nat
  cancelFlag : Option Nat
  started : List Nat
  published : List ProgressUpdate
  nextId : Nat
  clock : Nat
deriving Repr

/-- Modelled from the spec: the initial, empty orchestration state. -/
def initState : SysState :=
  { jobs := [], queue := [], activeId := none, cancelFlag := none,
    started := [], published := [], nextId := 0, clock := 0 }

/-- Look up a job by id in the job table. -/
def findJob : List Job → Nat → Option Job
  | [], _ => none
  | j :: js, i => if j.id = i then some j else findJob js i

/-- Update the job with the given id, leaving all other jobs unchanged. -/
def updJob (i : Nat) (f : Job → Job) (jobs : List Job) : List Job :=
  jobs.map (fun j => if j.id = i then f j else j)

/-- Modelled from the spec (section 4.1 enqueue, section 6 Submit): create a
job with a fresh id and status pending and append its id to the queue tail. -/
def submit (owner : Nat) (title : Option String) (lyrics tags : String)
    (s : SysState) : SysState :=
  let j : Job :=
    { id := s.nextId, owner := owner, title := title, lyrics := lyrics,
      tags := tags, status := .pending, progress := 0, totalFrames := 0,
      createdAt := s.clock, failureReason := none }
  { s with jobs := s.jobs ++ [j], queue := s.queue ++ [s.nextId],
           nextId := s.nextId + 1, clock := s.clock + 1 }

/-- Modelled from the spec (section 4.2 steps 1-2): when the worker is idle
and the queue is non-empty, dequeue the head job, mark it processing, record
it as the active job and append it to the start-order record. -/
def startNext (s : SysState) : SysState :=
  match s.activeId, s.queue with
  | none, i :: rest =>
      { s with queue := rest, activeId := some i,
               started := s.started ++ [i],
               jobs := updJob i (fun j => { j with status := .processing }) s.jobs }
  | _, _ => s

/-- Modelled from the spec (section 4.2 step 4): on each progress report,
update the active job's progress fields and publish a progress event tagged
with the job id. -/
def reportProgress (c t : Nat) (s : SysState) : SysState :=
  match s.activeId with
  | some i =>
      { s with
        jobs := updJob i (fun j => { j with progress := c, totalFrames := t }) s.jobs,
        published := s.published ++
          [{ id := i, status := .processing, progress := c, total_frames := t }] }
  | none => s

/-- Modelled from the spec (section 4.2 steps 5-7): finalize the active job
to the given terminal status, record the failure reason, publish a terminal
event carrying the last recorded progress, clear the active slot and the
cancellation flag, and leave the worker free to loop back. -/
def finishActive (st : GenerationStatus) (reason : Option String)
    (s : SysState) : SysState :=
  match s.activeId with
  | none => s
  | some i =>
      match findJob s.jobs i with
      | none => s
      | some j =>
          { s with
            jobs := updJob i
              (fun j0 => { j0 with status := st, failureReason := reason }) s.jobs,
            activeId := none,
            cancelFlag := none,
            published := s.published ++
              [{ id := i, status := st, progress := j.progress,
                 total_frames := j.totalFrames }] }

/-- Outcome of the cancellation protocol (spec section 4.3): a pending job is
removed, a processing job is signalled, a terminal job is a no-op, and an
unknown or non-owned id is reported not found. -/
inductive CancelOutcome where
  | removed
  | signalled
  | noop
  | notFound
deriving DecidableEq, Repr

/-- Modelled from the spec (section 4.3): cancellation by a caller against a
job id.  Unknown ids and jobs owned by someone else are indistinguishably
reported not found; a pending job is removed from the queue and marked
cancelled synchronously; a processing job has the cancellation flag set for
the worker to observe; a terminal job is a no-op. -/
def cancel (caller target : Nat) (s : SysState) : CancelOutcome × SysState :=
  match findJob s.jobs target with
  | none => (.notFound, s)
  | some j =>
      if j.owner = caller then
        match j.status with
        | .pending =>
            (.removed,
             { s with queue := s.queue.filter (fun x => x ≠ target),
                      jobs := updJob target
                        (fun j0 => { j0 with status := .cancelled }) s.jobs })
        | .processing => (.signalled, { s with cancelFlag := some target })
        | _ => (.noop, s)
      else (.notFound, s)

/-- Modelled from the spec (section 4.2 step 6, section 4.3): at a
cooperative checkpoint the worker observes the cancellation flag for the
active job and performs the abort sequence, finalizing it as cancelled. -/
def observeCancel (s : SysState) : SysState :=
  match s.activeId, s.cancelFlag with
  | some i, some i2 => if i = i2 then finishActive .cancelled none s else s
  | _, _ => s

/-- True on the two statuses visible in the queue view (pending and
processing). -/
def isVisible : GenerationStatus → Bool
  | .pending => true
  | .processing => true
  | _ => false

/-- True on the three terminal statuses. -/
def isTerminal : GenerationStatus → Bool
  | .completed => true
  | .failed => true
  | .cancelled => true
  | _ => false

/-- True exactly on the processing status. -/
def isProcessing : GenerationStatus → Bool
  | .processing => true
  | _ => false

/-- Project a job onto the frontend QueueItem shape. -/
def toQueueItem (j : Job) : QueueItem :=
  { id := j.id, title := j.title, status := j.status, progress := j.progress,
    total_frames := j.totalFrames, created_at := j.createdAt,
    lyrics := j.lyrics, tags := j.tags }

/-- Modelled from the spec (section 4.1 snapshot_for): the owner-filtered
queue view — the caller's own pending/processing jobs in global order, plus
the id of the active job. -/
def snapshotFor (owner : Nat) (s : SysState) : QueueStatus :=
  { items := (s.jobs.filter
      (fun j => decide (j.owner = owner) && isVisible j.status)).map toQueueItem,
    active_id := s.activeId }

/-- Modelled from the spec (sections 4.3, 7): owner-checked detailed read of
a single job; a job owned by someone else reads as absent. -/
def getJobFor (caller target : Nat) (s : SysState) : Option Job :=
  match findJob s.jobs target with
  | some j => if j.owner = caller then some j else none
  | none => none

/-- Character-list test: does the first list start with the second? -/
def strStarts : List Char → List Char → Bool
  | _, [] => true
  | [], _ :: _ => false
  | a :: as, b :: bs => a = b && strStarts as bs

/-- Character-list substring test. -/
def strHas : List Char → List Char → Bool
  | [], q => q.isEmpty
  | a :: as, q => strStarts (a :: as) q || strHas as q

/-- Substring test on strings. -/
def textContains (hay q : String) : Bool :=
  strHas hay.toList q.toList

/-- Modelled from the spec (section 6 List history): the optional text filter
matches over tags, lyrics and title. -/
def matchesFilt (filt : Option String) (j : Job) : Bool :=
  match filt with
  | none => true
  | some q =>
      textContains j.tags q || textContains j.lyrics q ||
        (match j.title with
         | some t => textContains t q
         | none => false)

/-- Insert a job into a list sorted by creation time descending. -/
def insertByCreated (j : Job) : List Job → List Job
  | [] => [j]
  | k :: ks =>
      if k.createdAt ≤ j.createdAt then j :: k :: ks
      else k :: insertByCreated j ks

/-- Sort a job list by creation time descending (most recent first). -/
def sortByCreatedDesc (l : List Job) : List Job :=
  l.foldr insertByCreated []

/-- Modelled from the spec (sections 4.5, 6 List history): return the page of
the caller's terminal (completed/failed/cancelled) records matching the
optional text filter, ordered by creation time descending. -/
def listHistory (owner page psize : Nat) (filt : Option String)
    (s : SysState) : List Job :=
  ((sortByCreatedDesc (s.jobs.filter
      (fun j => decide (j.owner = owner) && isTerminal j.status
                  && matchesFilt filt j))).drop
    ((page - 1) * psize)).take psize

/-- Modelled from the spec (sections 2, 5): the external operations that can
reach the orchestration core — submission, the worker picking up the next
job, a progress tick from the generation operation, normal completion,
unrecoverable failure, the worker observing a cancellation flag, and a
cancellation request by a caller. -/
inductive Event where
  | submit (owner : Nat) (title : Option String) (lyrics tags : String)
  | startNext
  | tick (c t : Nat)
  | complete
  | fail (reason : String)
  | observeCancel
  | cancelReq (caller target : Nat)

/-- Modelled from the spec: the one-step transition of the orchestration
state under an event. -/
def step (s : SysState) (e : Event) : SysState :=
  match e with
  | .submit o ti ly ta => submit o ti ly ta s
  | .startNext => startNext s
  | .tick c t => reportProgress c t s
  | .complete => finishActive .completed none s
  | .fail r => finishActive .failed (some r) s
  | .observeCancel => observeCancel s
  | .cancelReq c i => (cancel c i s).2

/-- Run an event trace from the initial state. -/
def run (es : List Event) : SysState :=
  es.foldl step initState

/-- Modelled from the spec (sections 2, 6): the external generation operation
yields a stream of cumulative progress ticks — after completing unit k of T
it reports (k, T) — so a run of n units produces ticks (1,T), ..., (n,T). -/
def genTicks (T n : Nat) : List Event :=
  (List.range n).map (fun k => Event.tick (k + 1) T)

/-- The progress pair recorded on a job, if the job exists. -/
def recordedProgress (s : SysState) (i : Nat) : Option (Nat × Nat) :=
  (findJob s.jobs i).map (fun j => (j.progress, j.totalFrames))

/-- The legal status edges of the spec's state machine (section 4.2):
pending to processing, pending to cancelled, and processing to each of the
three terminal statuses. -/
def statusEdge : GenerationStatus → GenerationStatus → Bool
  | .pending, .processing => true
  | .pending, .cancelled => true
  | .processing, .completed => true
  | .processing, .failed => true
  | .processing, .cancelled => true
  | _, _ => false

/-- A successful lookup returns a member of the table carrying the looked-up
id. -/
theorem findJob_mem : ∀ {jobs : List Job} {x : Nat} {j : Job},
    findJob jobs x = some j → j ∈ jobs ∧ j.id = x := by
  intro jobs
  induction jobs with
  | nil => intro x j h; cases h
  | cons k ks ih =>
    intro x j h
    by_cases hk : k.id = x
    · rw [findJob, if_pos hk] at h
      cases h
      exact ⟨List.mem_cons_self _ _, hk⟩
    · rw [findJob, if_neg hk] at h
      obtain ⟨hm, hid⟩ := ih h
      exact ⟨List.mem_cons_of_mem _ hm, hid⟩

/-- With duplicate-free ids, looking up a member's id finds that member. -/
theorem findJob_of_mem_nodup : ∀ {jobs : List Job} {j : Job},
    (jobs.map Job.id).Nodup → j ∈ jobs → findJob jobs j.id = some j := by
  intro jobs
  induction jobs with
  | nil => intro j _ h; cases h
  | cons k ks ih =>
    intro j hnd hm
    rw [List.map_cons, List.nodup_cons] at hnd
    rcases List.mem_cons.mp hm with h | h
    · subst h; rw [findJob, if_pos rfl]
    · have hne : k.id ≠ j.id := by
        intro he
        apply hnd.1
        rw [he]
        exact List.mem_map_of_mem Job.id h
      rw [findJob, if_neg hne]
      exact ih hnd.2 h

/-- With duplicate-free ids, two members sharing an id are the same job. -/
theorem job_id_inj : ∀ {jobs : List Job} {a b : Job},
    (jobs.map Job.id).Nodup → a ∈ jobs → b ∈ jobs → a.id = b.id → a = b := by
  intro jobs
  induction jobs with
  | nil => intro a b _ ha _ _; cases ha
  | cons k ks ih =>
    intro a b hnd ha hb hid
    rw [List.map_cons, List.nodup_cons] at hnd
    rcases List.mem_cons.mp ha with ha | ha <;>
      rcases List.mem_cons.mp hb with hb | hb
    · rw [ha, hb]
    · exfalso
      apply hnd.1
      rw [ha] at hid
      rw [hid]
      exact List.mem_map_of_mem Job.id hb
    · exfalso
      apply hnd.1
      rw [hb] at hid
      rw [← hid]
      exact List.mem_map_of_mem Job.id ha
    · exact ih hnd.2 ha hb hid

/-- Lookup after an id-preserving update returns the (possibly updated)
original entry. -/
theorem findJob_updJob (i : Nat) (f : Job → Job) (hf : ∀ j, (f j).id = j.id) :
    ∀ (jobs : List Job) (x : Nat),
    findJob (updJob i f jobs) x
      = (findJob jobs x).map (fun j => if j.id = i then f j else j) := by
  intro jobs
  induction jobs with
  | nil => intro x; rfl
  | cons k ks ih =>
    intro x
    have hgid : (if k.id = i then f k else k).id = k.id := by
      by_cases h : k.id = i
      · rw [if_pos h, hf]
      · rw [if_neg h]
    show findJob ((if k.id = i then f k else k) :: updJob i f ks) x = _
    by_cases hk : k.id = x
    · rw [findJob, if_pos (by rw [hgid]; exact hk), findJob, if_pos hk,
        Option.map_some']
    · rw [findJob, if_neg (by rw [hgid]; exact hk), findJob, if_neg hk, ih]

/-- An id-preserving update does not change the id column. -/
theorem updJob_map_id (i : Nat) (f : Job → Job) (hf : ∀ j, (f j).id = j.id) :
    ∀ (jobs : List Job), (updJob i f jobs).map Job.id = jobs.map Job.id := by
  intro jobs
  induction jobs with
  | nil => rfl
  | cons k ks ih =>
    have hgid : (if k.id = i then f k else k).id = k.id := by
      by_cases h : k.id = i
      · rw [if_pos h, hf]
      · rw [if_neg h]
    show ((if k.id = i then f k else k) :: updJob i f ks).map Job.id = _
    rw [List.map_cons, List.map_cons, hgid, ih]

/-- Members of the table reappear, possibly updated, after an update. -/
theorem mem_updJob {jobs : List Job} {j : Job} (h : j ∈ jobs) (i : Nat)
    (f : Job → Job) : (if j.id = i then f j else j) ∈ updJob i f jobs :=
  List.mem_map_of_mem _ h

/-- Members of an updated table come from members of the original table. -/
theorem of_mem_updJob {jobs : List Job} {i : Nat} {f : Job → Job} {j' : Job}
    (h : j' ∈ updJob i f jobs) :
    ∃ j, j ∈ jobs ∧ j' = if j.id = i then f j else j := by
  rcases List.mem_map.mp h with ⟨j, hj, he⟩
  exact ⟨j, hj, he.symm⟩

/-- Lookup distributes over append, preferring the left table. -/
theorem findJob_append_of_some : ∀ {l1 : List Job} {x : Nat} {j : Job}
    (l2 : List Job), findJob l1 x = some j → findJob (l1 ++ l2) x = some j := by
  intro l1
  induction l1 with
  | nil => intro x j l2 h; cases h
  | cons k ks ih =>
    intro x j l2 h
    by_cases hk : k.id = x
    · rw [findJob, if_pos hk] at h
      show findJob (k :: (ks ++ l2)) x = some j
      rw [findJob, if_pos hk]
      exact h
    · rw [findJob, if_neg hk] at h
      show findJob (k :: (ks ++ l2)) x = some j
      rw [findJob, if_neg hk]
      exact ih l2 h

/-- Lookup falls through to the right table when absent on the left. -/
theorem findJob_append_of_none : ∀ {l1 : List Job} {x : Nat}
    (l2 : List Job), findJob l1 x = none → findJob (l1 ++ l2) x = findJob l2 x := by
  intro l1
  induction l1 with
  | nil => intro x l2 _; rfl
  | cons k ks ih =>
    intro x l2 h
    by_cases hk : k.id = x
    · rw [findJob, if_pos hk] at h; cases h
    · rw [findJob, if_neg hk] at h
      show findJob (k :: (ks ++ l2)) x = findJob l2 x
      rw [findJob, if_neg hk]
      exact ih l2 h

/-- A member that keeps its id under an update stays a member unchanged. -/
theorem mem_updJob_of_ne {jobs : List Job} {j : Job} (h : j ∈ jobs) {i : Nat}
    (hne : j.id ≠ i) (f : Job → Job) : j ∈ updJob i f jobs := by
  have hm := mem_updJob h i f
  rwa [if_neg hne] at hm

/-- The targeted member appears updated after an update. -/
theorem mem_updJob_of_eq {jobs : List Job} {j : Job} (h : j ∈ jobs) {i : Nat}
    (he : j.id = i) (f : Job → Job) : f j ∈ updJob i f jobs := by
  have hm := mem_updJob h i f
  rwa [if_pos he] at hm

/-- The reachable-state invariant of the orchestration core: job ids are
assigned in strictly increasing submission order; queued ids belong to
pending jobs; the active id belongs to a processing job and every processing
job is the active one; the queue, the start record, and their relative order
are strictly increasing in id. -/
structure Inv (s : SysState) : Prop where
  jobsSorted : (s.jobs.map Job.id).Pairwise (· < ·)
  idsLt : ∀ j ∈ s.jobs, j.id < s.nextId
  queueMem : ∀ x ∈ s.queue, ∃ j, j ∈ s.jobs ∧ j.id = x ∧ j.status = .pending
  activeMem : ∀ i, s.activeId = some i →
    ∃ j, j ∈ s.jobs ∧ j.id = i ∧ j.status = .processing
  procActive : ∀ j ∈ s.jobs, j.status = .processing → s.activeId = some j.id
  queueSorted : s.queue.Pairwise (· < ·)
  startedSorted : s.started.Pairwise (· < ·)
  startedQueue : ∀ a ∈ s.started, ∀ b ∈ s.queue, a < b
  startedLt : ∀ a ∈ s.started, a < s.nextId
  startedMem : ∀ x ∈ s.started, ∃ j, j ∈ s.jobs ∧ j.id = x

/-- Strictly increasing ids are duplicate-free. -/
theorem inv_nodup {s : SysState} (h : Inv s) : (s.jobs.map Job.id).Nodup :=
  h.jobsSorted.imp (fun hab => Nat.ne_of_lt hab)

/-- The initial state satisfies the invariant. -/
theorem inv_init : Inv initState := by
  refine ⟨?_, ?_, ?_, ?_, ?_, ?_, ?_, ?_, ?_, ?_⟩ <;> simp [initState]

/-- Submission preserves the invariant. -/
theorem inv_submit {s : SysState} (h : Inv s) (o : Nat) (ti : Option String)
    (ly ta : String) : Inv (submit o ti ly ta s) := by
  refine ⟨?_, ?_, ?_, ?_, ?_, ?_, ?_, ?_, ?_, ?_⟩ <;> simp only [submit]
  · rw [List.map_append]
    apply List.pairwise_append.mpr
    refine ⟨h.jobsSorted, List.pairwise_singleton _ _, ?_⟩
    intro a ha b hb
    rw [List.map_singleton, List.mem_singleton] at hb
    subst hb
    rcases List.mem_map.mp ha with ⟨j, hj, rfl⟩
    exact h.idsLt j hj
  · intro j hj
    rcases List.mem_append.mp hj with hj | hj
    · exact Nat.lt_succ_of_lt (h.idsLt j hj)
    · rw [List.mem_singleton] at hj
      subst hj
      exact Nat.lt_succ_self _
  · intro x hx
    rcases List.mem_append.mp hx with hx | hx
    · rcases h.queueMem x hx with ⟨j, hj, hid, hst⟩
      exact ⟨j, List.mem_append_left _ hj, hid, hst⟩
    · rw [List.mem_singleton] at hx
      subst hx
      exact ⟨_, List.mem_append_right _ (List.mem_singleton_self _), rfl, rfl⟩
  · intro i hi
    rcases h.activeMem i hi with ⟨j, hj, hid, hst⟩
    exact ⟨j, List.mem_append_left _ hj, hid, hst⟩
  · intro j hj hst
    rcases List.mem_append.mp hj with hj | hj
    · exact h.procActive j hj hst
    · rw [List.mem_singleton] at hj
      subst hj
      exact absurd hst (by simp)
  · apply List.pairwise_append.mpr
    refine ⟨h.queueSorted, List.pairwise_singleton _ _, ?_⟩
    intro a ha b hb
    rw [List.mem_singleton] at hb
    subst hb
    rcases h.queueMem a ha with ⟨j, hj, hid, _⟩
    rw [← hid]
    exact h.idsLt j hj
  · exact h.startedSorted
  · intro a ha b hb
    rcases List.mem_append.mp hb with hb | hb
    · exact h.startedQueue a ha b hb
    · rw [List.mem_singleton] at hb
      subst hb
      exact h.startedLt a ha
  · intro a ha
    exact Nat.lt_succ_of_lt (h.startedLt a ha)
  · intro x hx
    rcases h.startedMem x hx with ⟨j, hj, hid⟩
    exact ⟨j, List.mem_append_left _ hj, hid⟩

/-- Starting the next queued job preserves the invariant. -/
theorem inv_startNext {s : SysState} (h : Inv s) : Inv (startNext s) := by
  unfold startNext
  split
  case h_2 => exact h
  case h_1 =>
    rename_i i rest ha hq
    have hirest : ∀ b ∈ rest, i < b := by
      intro b hb
      exact (List.pairwise_cons.mp (hq ▸ h.queueSorted)).1 b hb
    have hiq : i ∈ s.queue := by rw [hq]; exact List.mem_cons_self _ _
    rcases h.queueMem i hiq with ⟨j0, hj0, hj0id, hj0st⟩
    refine ⟨?_, ?_, ?_, ?_, ?_, ?_, ?_, ?_, ?_, ?_⟩ <;> dsimp only
    · rw [updJob_map_id i (fun j => { j with status := .processing })
        (fun j => rfl)]
      exact h.jobsSorted
    · intro j' hj'
      rcases of_mem_updJob hj' with ⟨j, hj, he⟩
      have : j'.id = j.id := by
        rw [he]; by_cases hc : j.id = i
        · rw [if_pos hc]
        · rw [if_neg hc]
      rw [this]
      exact h.idsLt j hj
    · intro x hx
      have hxq : x ∈ s.queue := by rw [hq]; exact List.mem_cons_of_mem _ hx
      rcases h.queueMem x hxq with ⟨j, hj, hid, hst⟩
      have hne : j.id ≠ i := by
        rw [hid]
        exact Nat.ne_of_gt (hirest x hx)
      exact ⟨j, mem_updJob_of_ne hj hne _, hid, hst⟩
    · intro a hact
      rw [Option.some_inj] at hact
      subst hact
      refine ⟨{ j0 with status := .processing },
        mem_updJob_of_eq hj0 hj0id _, hj0id, rfl⟩
    · intro j' hj' hst
      rcases of_mem_updJob hj' with ⟨j, hj, he⟩
      by_cases hc : j.id = i
      · rw [he, if_pos hc]
        rw [hc]
      · rw [if_neg hc] at he
        subst he
        have := h.procActive j' hj hst
        rw [ha] at this
        cases this
    · exact (List.pairwise_cons.mp (hq ▸ h.queueSorted)).2
    · apply List.pairwise_append.mpr
      refine ⟨h.startedSorted, List.pairwise_singleton _ _, ?_⟩
      intro a ha' b hb
      rw [List.mem_singleton] at hb
      rw [hb]
      exact h.startedQueue a ha' i hiq
    · intro a ha' b hb
      rcases List.mem_append.mp ha' with ha' | ha'
      · have hbq : b ∈ s.queue := by
          rw [hq]
          exact List.mem_cons_of_mem _ hb
        exact h.startedQueue a ha' b hbq
      · rw [List.mem_singleton] at ha'
        subst ha'
        exact hirest b hb
    · intro a ha'
      rcases List.mem_append.mp ha' with ha' | ha'
      · exact h.startedLt a ha'
      · rw [List.mem_singleton] at ha'
        subst ha'
        rw [← hj0id]
        exact h.idsLt j0 hj0
    · intro x hx
      rcases List.mem_append.mp hx with hx | hx
      · rcases h.startedMem x hx with ⟨j, hj, hid⟩
        refine ⟨if j.id = i then { j with status := .processing } else j,
          mem_updJob hj i _, ?_⟩
        by_cases hc : j.id = i
        · rw [if_pos hc, ← hc] at *
          exact hid
        · rw [if_neg hc]
          exact hid
      · rw [List.mem_singleton] at hx
        subst hx
        exact ⟨{ j0 with status := .processing },
          mem_updJob_of_eq hj0 hj0id _, hj0id⟩

/-- A progress report preserves the invariant. -/
theorem inv_reportProgress {s : SysState} (h : Inv s) (c t : Nat) :
    Inv (reportProgress c t s) := by
  unfold reportProgress
  split
  case h_2 => exact h
  case h_1 =>
    rename_i i ha
    have hids : ∀ j : Job,
        (({ j with progress := c, totalFrames := t } : Job)).id = j.id :=
      fun j => rfl
    refine ⟨?_, ?_, ?_, ?_, ?_, h.queueSorted, h.startedSorted,
      h.startedQueue, h.startedLt, ?_⟩ <;> dsimp only
    · rw [updJob_map_id i
        (fun j => { j with progress := c, totalFrames := t }) hids]
      exact h.jobsSorted
    · intro j' hj'
      rcases of_mem_updJob hj' with ⟨j, hj, he⟩
      have : j'.id = j.id := by
        rw [he]; by_cases hc : j.id = i
        · rw [if_pos hc]
        · rw [if_neg hc]
      rw [this]
      exact h.idsLt j hj
    · intro x hx
      rcases h.queueMem x hx with ⟨j, hj, hid, hst⟩
      refine ⟨if j.id = i then { j with progress := c, totalFrames := t } else j,
        mem_updJob hj i _, ?_, ?_⟩ <;> by_cases hc : j.id = i
      · rw [if_pos hc]; exact hid
      · rw [if_neg hc]; exact hid
      · rw [if_pos hc]; exact hst
      · rw [if_neg hc]; exact hst
    · intro a hact
      rcases h.activeMem a hact with ⟨j, hj, hid, hst⟩
      refine ⟨if j.id = i then { j with progress := c, totalFrames := t } else j,
        mem_updJob hj i _, ?_, ?_⟩ <;> by_cases hc : j.id = i
      · rw [if_pos hc]; exact hid
      · rw [if_neg hc]; exact hid
      · rw [if_pos hc]; exact hst
      · rw [if_neg hc]; exact hst
    · intro j' hj' hst
      rcases of_mem_updJob hj' with ⟨j, hj, he⟩
      have hsteq : j'.status = j.status := by
        rw [he]; by_cases hc : j.id = i
        · rw [if_pos hc]
        · rw [if_neg hc]
      have hideq : j'.id = j.id := by
        rw [he]; by_cases hc : j.id = i
        · rw [if_pos hc]
        · rw [if_neg hc]
      rw [hideq]
      exact h.procActive j hj (hsteq ▸ hst)
    · intro x hx
      rcases h.startedMem x hx with ⟨j, hj, hid⟩
      refine ⟨if j.id = i then { j with progress := c, totalFrames := t } else j,
        mem_updJob hj i _, ?_⟩
      by_cases hc : j.id = i
      · rw [if_pos hc]; exact hid
      · rw [if_neg hc]; exact hid

/-- Finalizing the active job to a non-processing status preserves the
invariant. -/
theorem inv_finishActive {s : SysState} (h : Inv s) (st : GenerationStatus)
    (reason : Option String) (hstp : st ≠ .processing) :
    Inv (finishActive st reason s) := by
  unfold finishActive
  split
  case h_1 => exact h
  case h_2 =>
    rename_i i ha
    split
    case h_1 => exact h
    case h_2 =>
      rename_i j hfind
      obtain ⟨hjmem, hjid⟩ := findJob_mem hfind
      rcases h.activeMem i ha with ⟨jp, hjp, hjpid, hjpst⟩
      refine ⟨?_, ?_, ?_, ?_, ?_, h.queueSorted, h.startedSorted,
        h.startedQueue, h.startedLt, ?_⟩ <;> dsimp only
      · rw [updJob_map_id i
          (fun j0 => { j0 with status := st, failureReason := reason })
          (fun j0 => rfl)]
        exact h.jobsSorted
      · intro j' hj'
        rcases of_mem_updJob hj' with ⟨jj, hjj, he⟩
        have : j'.id = jj.id := by
          rw [he]; by_cases hc : jj.id = i
          · rw [if_pos hc]
          · rw [if_neg hc]
        rw [this]
        exact h.idsLt jj hjj
      · intro x hx
        rcases h.queueMem x hx with ⟨jx, hjx, hxid, hxst⟩
        have hne : jx.id ≠ i := by
          intro he
          have : jx = jp := job_id_inj (inv_nodup h) hjx hjp (by rw [he, hjpid])
          rw [this, hjpst] at hxst
          cases hxst
        exact ⟨jx, mem_updJob_of_ne hjx hne _, hxid, hxst⟩
      · intro a hact
        simp at hact
      · intro j' hj' hst
        rcases of_mem_updJob hj' with ⟨jj, hjj, he⟩
        by_cases hc : jj.id = i
        · rw [he, if_pos hc] at hst
          exact absurd hst hstp
        · rw [if_neg hc] at he
          subst he
          have := h.procActive j' hjj hst
          rw [ha, Option.some_inj] at this
          exact absurd this.symm hc
      · intro x hx
        rcases h.startedMem x hx with ⟨jx, hjx, hxid⟩
        refine ⟨if jx.id = i
            then { jx with status := st, failureReason := reason } else jx,
          mem_updJob hjx i _, ?_⟩
        by_cases hc : jx.id = i
        · rw [if_pos hc]; exact hxid
        · rw [if_neg hc]; exact hxid

/-- Cancellation preserves the invariant on all its branches. -/
theorem inv_cancel {s : SysState} (h : Inv s) (caller target : Nat) :
    Inv (cancel caller target s).2 := by
  unfold cancel
  split
  case h_1 => exact h
  case h_2 =>
    rename_i j hfind
    obtain ⟨hjmem, hjid⟩ := findJob_mem hfind
    by_cases hown : j.owner = caller
    · rw [if_pos hown]
      split
      case _ hpend =>
        refine ⟨?_, ?_, ?_, ?_, ?_, ?_, h.startedSorted, ?_, h.startedLt,
          ?_⟩ <;> dsimp only
        · rw [updJob_map_id target (fun j0 => { j0 with status := .cancelled })
            (fun j0 => rfl)]
          exact h.jobsSorted
        · intro j' hj'
          rcases of_mem_updJob hj' with ⟨jj, hjj, he⟩
          have : j'.id = jj.id := by
            rw [he]; by_cases hc : jj.id = target
            · rw [if_pos hc]
            · rw [if_neg hc]
          rw [this]
          exact h.idsLt jj hjj
        · intro x hx
          obtain ⟨hxq, hpx⟩ := List.mem_filter.mp hx
          have hxne : x ≠ target := of_decide_eq_true hpx
          rcases h.queueMem x hxq with ⟨jx, hjx, hxid, hxst⟩
          have hne : jx.id ≠ target := by rw [hxid]; exact hxne
          exact ⟨jx, mem_updJob_of_ne hjx hne _, hxid, hxst⟩
        · intro a hact
          rcases h.activeMem a hact with ⟨jp, hjp, hpid, hpst⟩
          have hne : jp.id ≠ target := by
            intro he
            have : jp = j := job_id_inj (inv_nodup h) hjp hjmem (by rw [he, hjid])
            rw [this, hpend] at hpst
            cases hpst
          exact ⟨jp, mem_updJob_of_ne hjp hne _, hpid, hpst⟩
        · intro j' hj' hst
          rcases of_mem_updJob hj' with ⟨jj, hjj, he⟩
          by_cases hc : jj.id = target
          · rw [he, if_pos hc] at hst
            cases hst
          · rw [if_neg hc] at he
            subst he
            exact h.procActive j' hjj hst
        · exact List.Pairwise.sublist (List.filter_sublist _) h.queueSorted
        · intro a ha b hb
          exact h.startedQueue a ha b (List.mem_of_mem_filter hb)
        · intro x hx
          rcases h.startedMem x hx with ⟨jx, hjx, hxid⟩
          refine ⟨if jx.id = target
              then { jx with status := .cancelled } else jx,
            mem_updJob hjx target _, ?_⟩
          by_cases hc : jx.id = target
          · rw [if_pos hc]; exact hxid
          · rw [if_neg hc]; exact hxid
      case _ =>
        exact ⟨h.jobsSorted, h.idsLt, h.queueMem, h.activeMem, h.procActive,
          h.queueSorted, h.startedSorted, h.startedQueue, h.startedLt,
          h.startedMem⟩
      case _ =>
        exact h
    · rw [if_neg hown]
      exact h

/-- Observing the cancellation flag preserves the invariant. -/
theorem inv_observeCancel {s : SysState} (h : Inv s) :
    Inv (observeCancel s) := by
  unfold observeCancel
  split
  case h_2 => exact h
  case h_1 =>
    rename_i i i2 ha hflag
    by_cases hii : i = i2
    · rw [if_pos hii]
      exact inv_finishActive h _ _ (by decide)
    · rw [if_neg hii]
      exact h

/-- Every event preserves the invariant. -/
theorem inv_step {s : SysState} (h : Inv s) (e : Event) : Inv (step s e) := by
  cases e with
  | submit o ti ly ta => exact inv_submit h o ti ly ta
  | startNext => exact inv_startNext h
  | tick c t => exact inv_reportProgress h c t
  | complete => exact inv_finishActive h _ _ (by decide)
  | fail r => exact inv_finishActive h _ _ (by decide)
  | observeCancel => exact inv_observeCancel h
  | cancelReq c i => exact inv_cancel h c i

/-- Folding any event list preserves the invariant. -/
theorem inv_foldl : ∀ (es : List Event) (s : SysState),
    Inv s → Inv (es.foldl step s) := by
  intro es
  induction es with
  | nil => intro s h; exact h
  | cons e es ih =>
    intro s h
    exact ih _ (inv_step h e)

/-- Every reachable state satisfies the invariant. -/
theorem inv_run (es : List Event) : Inv (run es) :=
  inv_foldl es initState inv_init

/-- Finalization either leaves a job untouched or moves the processing job to
the requested terminal status. -/
theorem findJob_finishActive {s : SysState} (h : Inv s)
    (st : GenerationStatus) (r : Option String) {i : Nat} {j j' : Job}
    (hj : findJob s.jobs i = some j)
    (hj' : findJob (finishActive st r s).jobs i = some j') :
    j' = j ∨ (j.status = .processing ∧
      j' = { j with status := st, failureReason := r }) := by
  obtain ⟨hjm, hjid⟩ := findJob_mem hj
  unfold finishActive at hj'
  split at hj'
  case h_1 =>
    rw [hj, Option.some_inj] at hj'
    exact Or.inl hj'.symm
  case h_2 =>
    rename_i a ha
    split at hj'
    case h_1 =>
      rw [hj, Option.some_inj] at hj'
      exact Or.inl hj'.symm
    case h_2 =>
      rename_i ja hfa
      dsimp only at hj'
      rw [findJob_updJob a
          (fun j0 => { j0 with status := st, failureReason := r })
          (fun j0 => rfl), hj, Option.map_some', Option.some_inj] at hj'
      by_cases hc : j.id = a
      · rw [if_pos hc] at hj'
        rcases h.activeMem a ha with ⟨jp, hjp, hpid, hpst⟩
        have hjjp : j = jp := job_id_inj (inv_nodup h) hjm hjp (by rw [hc, hpid])
        refine Or.inr ⟨?_, hj'.symm⟩
        rw [hjjp]
        exact hpst
      · rw [if_neg hc] at hj'
        exact Or.inl hj'.symm

/-- Single-step status evolution: across any event, an existing job either
keeps its status or moves along a legal edge of the state machine. -/
theorem step_status {s : SysState} (h : Inv s) (e : Event) {i : Nat}
    {j j' : Job} (hj : findJob s.jobs i = some j)
    (hj' : findJob (step s e).jobs i = some j') :
    j'.status = j.status ∨ statusEdge j.status j'.status = true := by
  obtain ⟨hjm, hjid⟩ := findJob_mem hj
  cases e with
  | submit o ti ly ta =>
    simp only [step, submit] at hj'
    rw [findJob_append_of_some _ hj, Option.some_inj] at hj'
    left
    rw [← hj']
  | startNext =>
    simp only [step] at hj'
    unfold startNext at hj'
    split at hj'
    case h_2 =>
      rw [hj, Option.some_inj] at hj'
      left
      rw [← hj']
    case h_1 =>
      rename_i a rest ha hq
      dsimp only at hj'
      rw [findJob_updJob a (fun j0 => { j0 with status := .processing })
          (fun j0 => rfl), hj, Option.map_some', Option.some_inj] at hj'
      by_cases hc : j.id = a
      · rw [if_pos hc] at hj'
        have haq : a ∈ s.queue := by rw [hq]; exact List.mem_cons_self _ _
        rcases h.queueMem a haq with ⟨j0, hj0, h0id, h0st⟩
        have hjj0 : j = j0 := job_id_inj (inv_nodup h) hjm hj0 (by rw [hc, h0id])
        right
        rw [← hj', hjj0, h0st]
        rfl
      · rw [if_neg hc] at hj'
        left
        rw [← hj']
    | tick c t =>
      simp only [step] at hj'
      unfold reportProgress at hj'
      split at hj'
      case h_2 =>
        rw [hj, Option.some_inj] at hj'
        left
        rw [← hj']
      case h_1 =>
        rename_i a ha
        dsimp only at hj'
        rw [findJob_updJob a
            (fun j0 => { j0 with progress := c, totalFrames := t })
            (fun j0 => rfl), hj, Option.map_some', Option.some_inj] at hj'
        left
        rw [← hj']
        by_cases hc : j.id = a
        · rw [if_pos hc]
        · rw [if_neg hc]
    | complete =>
      simp only [step] at hj'
      rcases findJob_finishActive h .completed none hj hj' with he | ⟨hp, he⟩
      · left; rw [he]
      · right; rw [he, hp]; rfl
    | fail r =>
      simp only [step] at hj'
      rcases findJob_finishActive h .failed (some r) hj hj' with he | ⟨hp, he⟩
      · left; rw [he]
      · right; rw [he, hp]; rfl
    | observeCancel =>
      simp only [step] at hj'
      unfold observeCancel at hj'
      split at hj'
      case h_2 =>
        rw [hj, Option.some_inj] at hj'
        left
        rw [← hj']
      case h_1 =>
        rename_i a a2 ha hflag
        by_cases hii : a = a2
        · rw [if_pos hii] at hj'
          rcases findJob_finishActive h .cancelled none hj hj' with he | ⟨hp, he⟩
          · left; rw [he]
          · right; rw [he, hp]; rfl
        · rw [if_neg hii] at hj'
          rw [hj, Option.some_inj] at hj'
          left
          rw [← hj']
    | cancelReq c tgt =>
      simp only [step] at hj'
      unfold cancel at hj'
      split at hj'
      case h_1 =>
        dsimp only at hj'
        rw [hj, Option.some_inj] at hj'
        left
        rw [← hj']
      case h_2 =>
        rename_i j0 hfind
        by_cases hown : j0.owner = c
        · rw [if_pos hown] at hj'
          split at hj'
          case _ hpend =>
            dsimp only at hj'
            rw [findJob_updJob tgt (fun j1 => { j1 with status := .cancelled })
              (fun j1 => rfl), hj, Option.map_some', Option.some_inj] at hj'
            by_cases hc : j.id = tgt
            · rw [if_pos hc] at hj'
              obtain ⟨h0m, h0id⟩ := findJob_mem hfind
              have hjj0 : j = j0 :=
                job_id_inj (inv_nodup h) hjm h0m (by rw [hc, h0id])
              right
              rw [← hj', hjj0, hpend]
              rfl
            · rw [if_neg hc] at hj'
              left
              rw [← hj']
          case _ =>
            dsimp only at hj'
            rw [hj, Option.some_inj] at hj'
            left
            rw [← hj']
          case _ =>
            dsimp only at hj'
            rw [hj, Option.some_inj] at hj'
            left
            rw [← hj']
        · rw [if_neg hown] at hj'
          dsimp only at hj'
          rw [hj, Option.some_inj] at hj'
          left
          rw [← hj']

/-- Lookup succeeds on an updated table whenever it succeeded before. -/
theorem findJob_isSome_updJob (i : Nat) (f : Job → Job)
    (hf : ∀ j0, (f j0).id = j0.id) {jobs : List Job} {x : Nat} {j : Job}
    (hj : findJob jobs x = some j) :
    findJob (updJob i f jobs) x = some (if j.id = i then f j else j) := by
  rw [findJob_updJob i f hf, hj, Option.map_some']

/-- Finalization never removes a job from the table. -/
theorem finishActive_preserve (st : GenerationStatus) (r : Option String)
    {s : SysState} {i : Nat} {j : Job} (hj : findJob s.jobs i = some j) :
    ∃ j', findJob (finishActive st r s).jobs i = some j' := by
  unfold finishActive
  split
  · exact ⟨j, hj⟩
  · split
    · exact ⟨j, hj⟩
    · dsimp only
      exact ⟨_, findJob_isSome_updJob _
        (fun j0 => { j0 with status := st, failureReason := r })
        (fun j0 => rfl) hj⟩

/-- No event removes a job from the table. -/
theorem step_preserve {s : SysState} (e : Event) {i : Nat} {j : Job}
    (hj : findJob s.jobs i = some j) :
    ∃ j', findJob (step s e).jobs i = some j' := by
  cases e with
  | submit o ti ly ta =>
    refine ⟨j, ?_⟩
    simp only [step, submit]
    exact findJob_append_of_some _ hj
  | startNext =>
    simp only [step]
    unfold startNext
    split
    · dsimp only
      rename_i a rest ha hq
      exact ⟨_, findJob_isSome_updJob a
        (fun j0 => { j0 with status := .processing }) (fun j0 => rfl) hj⟩
    · exact ⟨j, hj⟩
  | tick c t =>
    simp only [step]
    unfold reportProgress
    split
    · dsimp only
      rename_i a ha
      exact ⟨_, findJob_isSome_updJob a
        (fun j0 => { j0 with progress := c, totalFrames := t })
        (fun j0 => rfl) hj⟩
    · exact ⟨j, hj⟩
  | complete =>
    simp only [step]
    exact finishActive_preserve _ _ hj
  | fail r =>
    simp only [step]
    exact finishActive_preserve _ _ hj
  | observeCancel =>
    simp only [step]
    unfold observeCancel
    split
    · rename_i a a2 ha hflag
      by_cases hii : a = a2
      · rw [if_pos hii]
        exact finishActive_preserve _ _ hj
      · rw [if_neg hii]
        exact ⟨j, hj⟩
    · exact ⟨j, hj⟩
  | cancelReq c tgt =>
    simp only [step]
    unfold cancel
    split
    · exact ⟨j, hj⟩
    · rename_i j0 hfind
      by_cases hown : j0.owner = c
      · rw [if_pos hown]
        split
        · dsimp only
          exact ⟨_, findJob_isSome_updJob tgt
            (fun j1 => { j1 with status := .cancelled }) (fun j1 => rfl) hj⟩
        · exact ⟨j, hj⟩
        · exact ⟨j, hj⟩
      · rw [if_neg hown]
        exact ⟨j, hj⟩

/-- No edge of the state machine enters the pending status. -/
theorem statusEdge_no_pending (x : GenerationStatus) :
    statusEdge x .pending = false := by
  cases x <;> rfl

/-- No edge of the state machine leaves a terminal status. -/
theorem statusEdge_terminal (x y : GenerationStatus)
    (h : isTerminal x = true) : statusEdge x y = false := by
  cases x <;> cases y <;> first | rfl | exact absurd h (by decide)

/-- A terminal status is preserved by a single step. -/
theorem step_terminal {s : SysState} (h : Inv s) (e : Event) {i : Nat}
    {j : Job} (hj : findJob s.jobs i = some j)
    (ht : isTerminal j.status = true) :
    ∃ j', findJob (step s e).jobs i = some j' ∧ j'.status = j.status := by
  obtain ⟨j', hj'⟩ := step_preserve e hj
  refine ⟨j', hj', ?_⟩
  rcases step_status h e hj hj' with he | he
  · exact he
  · rw [statusEdge_terminal _ _ ht] at he
    cases he

/-- A terminal status is preserved by any subsequent event trace. -/
theorem foldl_terminal : ∀ (es : List Event) {s : SysState}, Inv s →
    ∀ {i : Nat} {j : Job}, findJob s.jobs i = some j →
    isTerminal j.status = true →
    ∃ j', findJob ((es.foldl step s)).jobs i = some j' ∧
      j'.status = j.status := by
  intro es
  induction es with
  | nil =>
    intro s _ i j hj _
    exact ⟨j, hj, rfl⟩
  | cons e es ih =>
    intro s h i j hj ht
    obtain ⟨j1, hj1, hst1⟩ := step_terminal h e hj ht
    obtain ⟨j2, hj2, hst2⟩ := ih (inv_step h e) hj1 (by rw [hst1]; exact ht)
    exact ⟨j2, hj2, by rw [hst2, hst1]⟩

/-- A job pending after a trace was pending, or absent, at every earlier
point of the trace. -/
theorem foldl_pending_back : ∀ (es : List Event) {s : SysState}, Inv s →
    ∀ {i : Nat} {j' : Job},
    findJob ((es.foldl step s)).jobs i = some j' → j'.status = .pending →
    findJob s.jobs i = none ∨
      ∃ j, findJob s.jobs i = some j ∧ j.status = .pending := by
  intro es
  induction es with
  | nil =>
    intro s _ i j' hj' hp
    exact Or.inr ⟨j', hj', hp⟩
  | cons e es ih =>
    intro s h i j' hj' hp
    rcases ih (inv_step h e) hj' hp with hn | ⟨j1, hj1, hp1⟩
    · cases hfs : findJob s.jobs i with
      | none => exact Or.inl rfl
      | some j =>
        obtain ⟨j2, hj2⟩ := step_preserve e hfs
        rw [hn] at hj2
        cases hj2
    · cases hfs : findJob s.jobs i with
      | none => exact Or.inl rfl
      | some j =>
        rcases step_status h e hfs hj1 with he | he
        · refine Or.inr ⟨j, rfl, ?_⟩
          rw [← he]
          exact hp1
        · rw [hp1, statusEdge_no_pending] at he
          cases he

/-- Insertion adds exactly the inserted element to the membership. -/
theorem mem_insertByCreated {j x : Job} : ∀ {l : List Job},
    x ∈ insertByCreated j l ↔ x = j ∨ x ∈ l := by
  intro l
  induction l with
  | nil => simp [insertByCreated]
  | cons k ks ih =>
    by_cases hc : k.createdAt ≤ j.createdAt
    · simp [insertByCreated, hc]
    · simp only [insertByCreated, if_neg hc, List.mem_cons, ih]
      tauto

/-- Sorting preserves membership. -/
theorem mem_sortByCreatedDesc {x : Job} : ∀ {l : List Job},
    x ∈ sortByCreatedDesc l ↔ x ∈ l := by
  intro l
  induction l with
  | nil => simp [sortByCreatedDesc]
  | cons k ks ih =>
    show x ∈ insertByCreated k (sortByCreatedDesc ks) ↔ _
    rw [mem_insertByCreated]
    simp only [List.mem_cons, ih]

/-- Insertion keeps a list sorted by creation time descending. -/
theorem pairwise_insertByCreated {j : Job} : ∀ {l : List Job},
    l.Pairwise (fun a b => b.createdAt ≤ a.createdAt) →
    (insertByCreated j l).Pairwise (fun a b => b.createdAt ≤ a.createdAt) := by
  intro l
  induction l with
  | nil =>
    intro _
    exact List.pairwise_singleton _ _
  | cons k ks ih =>
    intro hp
    obtain ⟨hk, hks⟩ := List.pairwise_cons.mp hp
    by_cases hc : k.createdAt ≤ j.createdAt
    · rw [insertByCreated, if_pos hc]
      apply List.pairwise_cons.mpr
      refine ⟨?_, hp⟩
      intro b hb
      rcases List.mem_cons.mp hb with rfl | hb
      · exact hc
      · exact le_trans (hk b hb) hc
    · rw [insertByCreated, if_neg hc]
      apply List.pairwise_cons.mpr
      refine ⟨?_, ih hks⟩
      intro b hb
      rcases mem_insertByCreated.mp hb with rfl | hb
      · exact le_of_not_le hc
      · exact hk b hb

/-- The history sort is sorted by creation time descending. -/
theorem pairwise_sortByCreatedDesc : ∀ (l : List Job),
    (sortByCreatedDesc l).Pairwise (fun a b => b.createdAt ≤ a.createdAt) := by
  intro l
  induction l with
  | nil => exact List.Pairwise.nil
  | cons k ks ih => exact pairwise_insertByCreated ih

/-- JavaScript number semantics needed by the embedded frontend computation:
a finite value, NaN, or a signed infinity. -/
inductive JNum where
  | num (q : ℚ)
  | nan
  | inf
  | ninf
deriving DecidableEq, Repr

/-- JavaScript division: exact on finite values except that division by zero
yields NaN (for 0/0) or a signed infinity; NaN and infinite operands
propagate NaN here (the embedded computation never divides them). -/
def jsDiv : JNum → JNum → JNum
  | .num a, .num b =>
      if b = 0 then
        if a = 0 then .nan else if a > 0 then .inf else .ninf
      else .num (a / b)
  | _, _ => .nan

/-- JavaScript multiplication on the value classes. -/
def jsMul : JNum → JNum → JNum
  | .num a, .num b => .num (a * b)
  | .inf, .num b => if b > 0 then .inf else if b < 0 then .ninf else .nan
  | .num a, .inf => if a > 0 then .inf else if a < 0 then .ninf else .nan
  | .ninf, .num b => if b > 0 then .ninf else if b < 0 then .inf else .nan
  | .num a, .ninf => if a > 0 then .ninf else if a < 0 then .inf else .nan
  | .inf, .inf => .inf
  | .inf, .ninf => .ninf
  | .ninf, .inf => .ninf
  | .ninf, .ninf => .inf
  | _, _ => .nan

/-- JavaScript greater-than: false on any NaN comparison. -/
def jsGt : JNum → JNum → Bool
  | .num a, .num b => decide (a > b)
  | .inf, .num _ => true
  | .num _, .ninf => true
  | .inf, .ninf => true
  | _, _ => false

/-- JavaScript Math.round: floor of x + 1/2 on finite values; NaN and the
infinities pass through. -/
def jsMathRound : JNum → JNum
  | .num q => .num ((⌊q + 1 / 2⌋ : ℤ) : ℚ)
  | x => x

/-- Embedded from src/unnamed/part_004 lines 66-68 (QueueItemCard): the
displayed percentage is
total_frames > 0 ? Math.round((progress / total_frames) * 100) : 0. -/
def progressPercent (progress total_frames : JNum) : JNum :=
  if jsGt total_frames (.num 0) = true then
    jsMathRound (jsMul (jsDiv progress total_frames) (.num 100))
  else .num 0

/-- isProcessing recognises exactly the processing status. -/
theorem isProcessing_iff (st : GenerationStatus) :
    isProcessing st = true ↔ st = .processing := by
  cases st <;> simp [isProcessing]

/-- C1: for every sequence of operations, jobs start processing in exactly
the order they were enqueued.  Ids are assigned in strictly increasing
submission order (first conjunct), the recorded start order is strictly
increasing in id (second conjunct), and every started id is a submitted
job's id (third conjunct) — so the start order is the enqueue order, with no
priority reordering. -/
theorem fifo_start_order (es : List Event) :
    ((run es).jobs.map Job.id).Pairwise (· < ·)
    ∧ (run es).started.Pairwise (· < ·)
    ∧ ∀ x ∈ (run es).started, ∃ j, j ∈ (run es).jobs ∧ j.id = x :=
  ⟨(inv_run es).jobsSorted, (inv_run es).startedSorted,
    (inv_run es).startedMem⟩

/-- C2: in every reachable state, at most one job has status processing, and
the queue snapshot exposes a single nullable active-job identifier. -/
theorem single_active_job (es : List Event) :
    ((run es).jobs.filter (fun j => isProcessing j.status)).length ≤ 1
    ∧ ∀ o : Nat, (snapshotFor o (run es)).active_id = (run es).activeId := by
  refine ⟨?_, fun o => rfl⟩
  have h := inv_run es
  have hnder : (run es).jobs.Nodup := (inv_nodup h).of_map
  cases hfl : (run es).jobs.filter (fun j => isProcessing j.status) with
  | nil => simp
  | cons a t =>
    cases t with
    | nil => simp
    | cons b t2 =>
      exfalso
      have hand : ((run es).jobs.filter
          (fun j => isProcessing j.status)).Nodup := hnder.filter _
      rw [hfl] at hand
      have ham : a ∈ (run es).jobs.filter (fun j => isProcessing j.status) := by
        rw [hfl]
        exact List.mem_cons_self _ _
      have hbm : b ∈ (run es).jobs.filter (fun j => isProcessing j.status) := by
        rw [hfl]
        exact List.mem_cons_of_mem _ (List.mem_cons_self _ _)
      have hab : a ≠ b := by
        intro he
        apply (List.nodup_cons.mp hand).1
        rw [he]
        exact List.mem_cons_self _ _
      obtain ⟨haj, hap⟩ := List.mem_filter.mp ham
      obtain ⟨hbj, hbp⟩ := List.mem_filter.mp hbm
      have h1 := h.procActive a haj ((isProcessing_iff _).mp hap)
      have h2 := h.procActive b hbj ((isProcessing_iff _).mp hbp)
      rw [h1, Option.some_inj] at h2
      exact hab (job_id_inj (inv_nodup h) haj hbj h2)

/-- C9: the history listing returns only the owner's records in terminal
statuses matching the filter, ordered by creation time descending, and
paginated by the given page and page size. -/
theorem history_query (owner page psize : Nat) (filt : Option String)
    (s : SysState) :
    (∀ r ∈ listHistory owner page psize filt s,
        r ∈ s.jobs ∧ r.owner = owner ∧ isTerminal r.status = true ∧
          matchesFilt filt r = true)
    ∧ (listHistory owner page psize filt s).Pairwise
        (fun x y => y.createdAt ≤ x.createdAt)
    ∧ (listHistory owner page psize filt s).length ≤ psize
    ∧ listHistory owner page psize filt s
        = ((sortByCreatedDesc (s.jobs.filter
            (fun j2 => decide (j2.owner = owner) && isTerminal j2.status
              && matchesFilt filt j2))).drop ((page - 1) * psize)).take
            psize := by
  refine ⟨?_, ?_, ?_, rfl⟩
  · intro r hr
    have hr2 : r ∈ sortByCreatedDesc (s.jobs.filter
        (fun j2 => decide (j2.owner = owner) && isTerminal j2.status
          && matchesFilt filt j2)) :=
      List.drop_subset _ _ (List.take_subset _ _ hr)
    have hr3 := mem_sortByCreatedDesc.mp hr2
    obtain ⟨hmem, hb⟩ := List.mem_filter.mp hr3
    obtain ⟨hb1, hb3⟩ := Bool.and_eq_true_iff.mp hb
    obtain ⟨hb1a, hb2⟩ := Bool.and_eq_true_iff.mp hb1
    exact ⟨hmem, of_decide_eq_true hb1a, hb2, hb3⟩
  · exact List.Pairwise.sublist (List.take_sublist _ _)
      (List.Pairwise.sublist (List.drop_sublist _ _)
        (pairwise_sortByCreatedDesc _))
  · rw [listHistory, List.length_take]
    exact Nat.min_le_left _ _

/-- C10: the displayed queue progress percentage uses a guarded division —
when total_frames is a positive number it is Math.round of
progress / total_frames * 100, otherwise (in particular at 0) it is exactly
0 — and its result is always a finite number, never NaN. -/
theorem progress_percent_guarded (p t : ℚ) :
    (∃ r : ℚ, progressPercent (.num p) (.num t) = .num r)
    ∧ progressPercent (.num p) (.num t) ≠ .nan
    ∧ (0 < t → progressPercent (.num p) (.num t)
        = .num ((⌊p / t * 100 + 1 / 2⌋ : ℤ) : ℚ))
    ∧ (t = 0 → progressPercent (.num p) (.num t) = .num 0) := by
  by_cases ht : 0 < t
  · have htne : t ≠ 0 := ne_of_gt ht
    have hg : jsGt (JNum.num t) (JNum.num 0) = true := by
      simp only [jsGt, decide_eq_true_iff]
      exact ht
    have hval : progressPercent (.num p) (.num t)
        = .num ((⌊p / t * 100 + 1 / 2⌋ : ℤ) : ℚ) := by
      rw [progressPercent, if_pos hg]
      simp only [jsDiv, if_neg htne, jsMul, jsMathRound]
    refine ⟨⟨_, hval⟩, ?_, fun _ => hval, fun h0 => absurd h0 htne⟩
    rw [hval]
    intro hcon
    cases hcon
  · have hg : jsGt (JNum.num t) (JNum.num 0) = false := by
      simp only [jsGt]
      exact decide_eq_false ht
    have hval : progressPercent (.num p) (.num t) = .num 0 := by
      rw [progressPercent, if_neg]
      rw [hg]
      simp
    refine ⟨⟨0, hval⟩, ?_, fun hc => absurd hc ht, fun _ => hval⟩
    rw [hval]
    intro hcon
    cases hcon

/-- Witness for C10 at the spec's example shape: total 20, progress 5 gives
25 percent, and total 0 gives 0. -/
theorem progress_percent_guarded_witness :
    ((0 : ℚ) < 20)
    ∧ progressPercent (.num 5) (.num 20)
        = .num ((⌊(5 : ℚ) / 20 * 100 + 1 / 2⌋ : ℤ) : ℚ)
    ∧ progressPercent (.num 5) (.num 0) = .num 0 :=
  ⟨by norm_num, (progress_percent_guarded 5 20).2.2.1 (by norm_num),
    (progress_percent_guarded 5 0).2.2.2 rfl⟩

/-- C3: across any single event applied to a reachable state, a job's status
is unchanged or follows one of the legal edges
pending to processing, pending to cancelled, processing to
completed/failed/cancelled; no operation leaves a terminal status or moves
backwards; and the five listed values are the only statuses. -/
theorem status_state_machine (es : List Event) (e : Event) (i : Nat)
    (j j' : Job) (hj : findJob (run es).jobs i = some j)
    (hj' : findJob (step (run es) e).jobs i = some j') :
    (j'.status = j.status ∨ statusEdge j.status j'.status = true)
    ∧ (∀ st : GenerationStatus, st = .pending ∨ st = .processing ∨
        st = .completed ∨ st = .failed ∨ st = .cancelled) := by
  refine ⟨step_status (inv_run es) e hj hj', ?_⟩
  intro st
  cases st <;> simp

/-- Witness for C3: a submitted job moves from pending to processing when
the worker starts it. -/
theorem status_state_machine_witness :
    (GenerationStatus.processing = GenerationStatus.pending ∨
      statusEdge GenerationStatus.pending GenerationStatus.processing = true)
    ∧ (∀ st : GenerationStatus, st = .pending ∨ st = .processing ∨
        st = .completed ∨ st = .failed ∨ st = .cancelled) :=
  status_state_machine [Event.submit 7 none "la" "rock"] Event.startNext 0
    { id := 0, owner := 7, title := none, lyrics := "la", tags := "rock",
      status := .pending, progress := 0, totalFrames := 0, createdAt := 0,
      failureReason := none }
    { id := 0, owner := 7, title := none, lyrics := "la", tags := "rock",
      status := .processing, progress := 0, totalFrames := 0, createdAt := 0,
      failureReason := none }
    (by decide) (by decide)

/-- C5: cancelling a job already in a terminal status is an idempotent
no-op — once and twice give the same no-op outcome and leave the state
unchanged, with no error outcome. -/
theorem cancel_terminal_idempotent (es : List Event) (i : Nat) (j : Job)
    (hj : findJob (run es).jobs i = some j)
    (ht : isTerminal j.status = true) :
    cancel j.owner i (run es) = (.noop, run es)
    ∧ cancel j.owner i ((cancel j.owner i (run es)).2)
        = (.noop, run es) := by
  have h1 : cancel j.owner i (run es) = (.noop, run es) := by
    unfold cancel
    rw [hj]
    dsimp only
    rw [if_pos rfl]
    cases hst : j.status with
    | pending => rw [hst] at ht; simp [isTerminal] at ht
    | processing => rw [hst] at ht; simp [isTerminal] at ht
    | completed => rfl
    | failed => rfl
    | cancelled => rfl
  refine ⟨h1, ?_⟩
  rw [h1]
  exact h1

/-- Witness for C5: cancelling a completed job twice is a no-op both
times. -/
theorem cancel_terminal_idempotent_witness :
    cancel 3 0 (run [Event.submit 3 none "x" "y", Event.startNext,
        Event.complete])
      = (.noop, run [Event.submit 3 none "x" "y", Event.startNext,
        Event.complete])
    ∧ cancel 3 0 ((cancel 3 0 (run [Event.submit 3 none "x" "y",
        Event.startNext, Event.complete])).2)
      = (.noop, run [Event.submit 3 none "x" "y", Event.startNext,
        Event.complete]) :=
  cancel_terminal_idempotent
    [Event.submit 3 none "x" "y", Event.startNext, Event.complete] 0
    { id := 0, owner := 3, title := none, lyrics := "x", tags := "y",
      status := .completed, progress := 0, totalFrames := 0, createdAt := 0,
      failureReason := none }
    (by decide) (by decide)

/-- C4: cancelling a still-pending job yields the removed outcome, removes
it from the queue and sets its status directly to cancelled; its status is
cancelled at every later point (so never processing after), and it was
pending or absent at every earlier point of the trace (so never processing
before). -/
theorem cancel_pending_direct (es : List Event) (i : Nat) (j : Job)
    (hj : findJob (run es).jobs i = some j) (hp : j.status = .pending) :
    (cancel j.owner i (run es)).1 = .removed
    ∧ findJob ((cancel j.owner i (run es)).2).jobs i
        = some { j with status := .cancelled }
    ∧ i ∉ ((cancel j.owner i (run es)).2).queue
    ∧ (∀ es' : List Event, ∃ j',
        findJob ((es'.foldl step ((cancel j.owner i (run es)).2))).jobs i
          = some j' ∧ j'.status = .cancelled)
    ∧ (∀ es1 es2 : List Event, es = es1 ++ es2 →
        findJob (run es1).jobs i = none ∨
          ∃ j0, findJob (run es1).jobs i = some j0 ∧
            j0.status = .pending) := by
  have h := inv_run es
  obtain ⟨hjm, hjid⟩ := findJob_mem hj
  have hcomp : cancel j.owner i (run es) =
      (.removed,
       { run es with
         queue := (run es).queue.filter (fun x => x ≠ i),
         jobs := updJob i (fun j0 => { j0 with status := .cancelled })
           (run es).jobs }) := by
    unfold cancel
    rw [hj]
    dsimp only
    rw [if_pos rfl, hp]
  have hb : findJob ((cancel j.owner i (run es)).2).jobs i
      = some { j with status := .cancelled } := by
    rw [hcomp]
    dsimp only
    have hv := findJob_isSome_updJob i
      (fun j0 => { j0 with status := .cancelled }) (fun j0 => rfl) hj
    rw [if_pos hjid] at hv
    exact hv
  refine ⟨?_, hb, ?_, ?_, ?_⟩
  · rw [hcomp]
  · rw [hcomp]
    dsimp only
    intro hmem
    have hne := (List.mem_filter.mp hmem).2
    rw [decide_eq_true_iff] at hne
    exact hne rfl
  · intro es'
    obtain ⟨j', hj', hst⟩ :=
      foldl_terminal es' (inv_cancel h j.owner i) hb rfl
    exact ⟨j', hj', hst⟩
  · intro es1 es2 heq
    subst heq
    rw [run, List.foldl_append] at hj
    exact foldl_pending_back es2 (inv_run es1) hj hp

/-- Witness for C4: cancelling a freshly submitted (pending) job removes it
and marks it cancelled. -/
theorem cancel_pending_direct_witness :
    (cancel 2 0 (run [Event.submit 2 none "a" "b"])).1 = .removed
    ∧ findJob ((cancel 2 0 (run [Event.submit 2 none "a" "b"])).2).jobs 0
        = some { id := 0, owner := 2, title := none, lyrics := "a",
                 tags := "b", status := .cancelled, progress := 0,
                 totalFrames := 0, createdAt := 0, failureReason := none }
    ∧ 0 ∉ ((cancel 2 0 (run [Event.submit 2 none "a" "b"])).2).queue := by
  have hth := cancel_pending_direct [Event.submit 2 none "a" "b"] 0
    { id := 0, owner := 2, title := none, lyrics := "a", tags := "b",
      status := .pending, progress := 0, totalFrames := 0, createdAt := 0,
      failureReason := none } (by decide) rfl
  exact ⟨hth.1, hth.2.1, hth.2.2.1⟩

/-- C6: a job of owner a is invisible to a different owner b — it never
appears in b's queue snapshot items or history listing, and b's cancel and
detailed-read attempts on it fail as not found, leaving the state
unchanged. -/
theorem owner_isolation (es : List Event) (a b i : Nat) (j : Job)
    (hab : a ≠ b) (hj : findJob (run es).jobs i = some j)
    (ho : j.owner = a) :
    (∀ it ∈ (snapshotFor b (run es)).items, it.id ≠ i)
    ∧ (∀ page psize : Nat, ∀ filt : Option String,
        ∀ r ∈ listHistory b page psize filt (run es), r.id ≠ i)
    ∧ cancel b i (run es) = (.notFound, run es)
    ∧ getJobFor b i (run es) = none := by
  have h := inv_run es
  obtain ⟨hjm, hjid⟩ := findJob_mem hj
  have hno : ¬ (j.owner = b) := by
    rw [ho]
    exact hab
  refine ⟨?_, ?_, ?_, ?_⟩
  · intro it hit
    obtain ⟨jx, hjx, hxe⟩ := List.mem_map.mp hit
    obtain ⟨hxmem, hxb⟩ := List.mem_filter.mp hjx
    obtain ⟨hxo, _⟩ := Bool.and_eq_true_iff.mp hxb
    have hxo2 : jx.owner = b := of_decide_eq_true hxo
    intro hie
    rw [← hxe] at hie
    have hxj : jx = j :=
      job_id_inj (inv_nodup h) hxmem hjm (by rw [hjid]; exact hie)
    rw [hxj, ho] at hxo2
    exact hab hxo2
  · intro page psize filt r hr
    have hr2 : r ∈ sortByCreatedDesc ((run es).jobs.filter
        (fun j2 => decide (j2.owner = b) && isTerminal j2.status
          && matchesFilt filt j2)) :=
      List.drop_subset _ _ (List.take_subset _ _ hr)
    obtain ⟨hmem, hbl⟩ := List.mem_filter.mp (mem_sortByCreatedDesc.mp hr2)
    obtain ⟨hb1, _⟩ := Bool.and_eq_true_iff.mp hbl
    obtain ⟨hb1a, _⟩ := Bool.and_eq_true_iff.mp hb1
    have hro : r.owner = b := of_decide_eq_true hb1a
    intro hre
    have hrj : r = j :=
      job_id_inj (inv_nodup h) hmem hjm (by rw [hjid]; exact hre)
    rw [hrj, ho] at hro
    exact hab hro
  · unfold cancel
    rw [hj]
    dsimp only
    rw [if_neg hno]
  · unfold getJobFor
    rw [hj]
    dsimp only
    rw [if_neg hno]

/-- Witness for C6: owner 2 cannot cancel or read owner 1's job. -/
theorem owner_isolation_witness :
    ((1 : Nat) ≠ 2)
    ∧ cancel 2 0 (run [Event.submit 1 none "" ""])
        = (.notFound, run [Event.submit 1 none "" ""])
    ∧ getJobFor 2 0 (run [Event.submit 1 none "" ""]) = none := by
  have hth := owner_isolation [Event.submit 1 none "" ""] 1 2 0
    { id := 0, owner := 1, title := none, lyrics := "", tags := "",
      status := .pending, progress := 0, totalFrames := 0, createdAt := 0,
      failureReason := none } (by decide) (by decide) rfl
  exact ⟨by decide, hth.2.2.1, hth.2.2.2⟩

/-- C7: when the generation operation fails after reporting progress, the
active job becomes failed with its last recorded progress intact and the
failure reason recorded, a terminal event is published, the slot is freed,
and the worker then starts the next queued job. -/
theorem failure_isolates_and_continues (es : List Event) (i : Nat) (j : Job)
    (r : String) (q : Nat) (rest : List Nat)
    (ha : (run es).activeId = some i)
    (hj : findJob (run es).jobs i = some j)
    (hq : (run es).queue = q :: rest) :
    findJob (step (run es) (.fail r)).jobs i
        = some { j with status := .failed, failureReason := some r }
    ∧ (step (run es) (.fail r)).published
        = (run es).published ++
          [{ id := i, status := .failed, progress := j.progress,
             total_frames := j.totalFrames }]
    ∧ (step (run es) (.fail r)).activeId = none
    ∧ (∃ j2, findJob (step (step (run es) (.fail r)) .startNext).jobs q
        = some j2 ∧ j2.status = .processing)
    ∧ (step (step (run es) (.fail r)) .startNext).activeId = some q := by
  have h := inv_run es
  obtain ⟨hjm, hjid⟩ := findJob_mem hj
  have hs1 : step (run es) (.fail r) =
      { run es with
        jobs := updJob i
          (fun j0 => { j0 with status := .failed, failureReason := some r })
          (run es).jobs,
        activeId := none,
        cancelFlag := none,
        published := (run es).published ++
          [{ id := i, status := .failed, progress := j.progress,
             total_frames := j.totalFrames }] } := by
    simp only [step]
    unfold finishActive
    rw [ha]
    dsimp only
    rw [hj]
  have hqq : q ∈ (run es).queue := by
    rw [hq]
    exact List.mem_cons_self _ _
  obtain ⟨jq, hjq, hqid, hqst⟩ := h.queueMem q hqq
  obtain ⟨jp, hjp, hpid, hpst⟩ := h.activeMem i ha
  have hqne : jq.id ≠ i := by
    intro he
    have : jq = jp := job_id_inj (inv_nodup h) hjq hjp (by rw [he, hpid])
    rw [this, hpst] at hqst
    cases hqst
  have hfq : findJob (run es).jobs q = some jq := by
    rw [← hqid]
    exact findJob_of_mem_nodup (inv_nodup h) hjq
  have hfq1 : findJob (step (run es) (.fail r)).jobs q = some jq := by
    rw [hs1]
    dsimp only
    have hv := findJob_isSome_updJob i
      (fun j0 => { j0 with status := .failed, failureReason := some r })
      (fun j0 => rfl) hfq
    rw [if_neg hqne] at hv
    exact hv
  have hb1 : findJob (step (run es) (.fail r)).jobs i
      = some { j with status := .failed, failureReason := some r } := by
    rw [hs1]
    dsimp only
    have hv := findJob_isSome_updJob i
      (fun j0 => { j0 with status := .failed, failureReason := some r })
      (fun j0 => rfl) hj
    rw [if_pos hjid] at hv
    exact hv
  have hs1q : (step (run es) (.fail r)).queue = q :: rest := by
    rw [hs1]
    exact hq
  have hs1a : (step (run es) (.fail r)).activeId = none := by
    rw [hs1]
  have hs2 : step (step (run es) (.fail r)) .startNext =
      { step (run es) (.fail r) with
        queue := rest,
        activeId := some q,
        started := (step (run es) (.fail r)).started ++ [q],
        jobs := updJob q (fun j0 => { j0 with status := .processing })
          (step (run es) (.fail r)).jobs } := by
    have hs1a2 : (finishActive .failed (some r) (run es)).activeId = none :=
      hs1a
    have hs1q2 : (finishActive .failed (some r) (run es)).queue = q :: rest :=
      hs1q
    simp only [step]
    unfold startNext
    rw [hs1a2, hs1q2]
  refine ⟨hb1, ?_, hs1a, ?_, ?_⟩
  · rw [hs1]
  · refine ⟨{ jq with status := .processing }, ?_, rfl⟩
    rw [hs2]
    dsimp only
    have hv := findJob_isSome_updJob q
      (fun j0 => { j0 with status := .processing }) (fun j0 => rfl) hfq1
    rw [if_pos hqid] at hv
    exact hv
  · rw [hs2]

/-- Witness for C7 at the spec's scenario: progress (5, 20) then failure
leaves the job failed at (5, 20) and the next queued job starts. -/
theorem failure_isolates_and_continues_witness :
    findJob (step (run [Event.submit 4 none "l" "t",
        Event.submit 4 none "l2" "t2", Event.startNext, Event.tick 5 20])
        (.fail "oom")).jobs 0
      = some { id := 0, owner := 4, title := none, lyrics := "l",
               tags := "t", status := .failed, progress := 5,
               totalFrames := 20, createdAt := 0,
               failureReason := some "oom" }
    ∧ (step (step (run [Event.submit 4 none "l" "t",
        Event.submit 4 none "l2" "t2", Event.startNext, Event.tick 5 20])
        (.fail "oom")) .startNext).activeId = some 1 := by
  have hth := failure_isolates_and_continues
    [Event.submit 4 none "l" "t", Event.submit 4 none "l2" "t2",
      Event.startNext, Event.tick 5 20] 0
    { id := 0, owner := 4, title := none, lyrics := "l", tags := "t",
      status := .processing, progress := 5, totalFrames := 20,
      createdAt := 0, failureReason := none }
    "oom" 1 [] (by decide) (by decide) (by decide)
  exact ⟨hth.1, hth.2.2.2.2⟩

/-- The modelled tick stream of length k+1 extends that of length k. -/
theorem genTicks_succ (T k : Nat) :
    genTicks T (k + 1) = genTicks T k ++ [Event.tick (k + 1) T] := by
  unfold genTicks
  rw [List.range_succ, List.map_append]
  rfl

/-- Running the modelled tick stream: the worker stays on the same job, and
after k ticks the job's recorded progress is exactly k out of T (the total
still being the initial 0 before the first report). -/
theorem genTicks_run {s : SysState} {i : Nat} {j : Job} (T : Nat)
    (ha : s.activeId = some i) (hj : findJob s.jobs i = some j) :
    ∀ k : Nat,
      ((genTicks T k).foldl step s).activeId = some i ∧
      findJob ((genTicks T k).foldl step s).jobs i
        = some (if k = 0 then j
                else { j with progress := k, totalFrames := T }) := by
  have hjid := (findJob_mem hj).2
  intro k
  induction k with
  | zero =>
    refine ⟨ha, ?_⟩
    show findJob s.jobs i = _
    rw [hj, if_pos rfl]
  | succ k ih =>
    obtain ⟨iha, ihj⟩ := ih
    rw [genTicks_succ, List.foldl_append, List.foldl_cons, List.foldl_nil]
    constructor
    · show (step ((genTicks T k).foldl step s) (.tick (k + 1) T)).activeId
        = some i
      simp only [step]
      unfold reportProgress
      rw [iha]
    · show findJob
        (step ((genTicks T k).foldl step s) (.tick (k + 1) T)).jobs i = _
      simp only [step]
      unfold reportProgress
      rw [iha]
      dsimp only
      have hv := findJob_isSome_updJob i
        (fun j0 => { j0 with progress := k + 1, totalFrames := T })
        (fun j0 => rfl) ihj
      have hite : (if k = 0 then j
          else { j with progress := k, totalFrames := T }).id = i := by
        by_cases hk : k = 0
        · rw [if_pos hk]
          exact hjid
        · rw [if_neg hk]
          exact hjid
      rw [if_pos hite] at hv
      rw [hv, if_neg (Nat.succ_ne_zero k)]
      by_cases hk : k = 0
      · subst hk
        rfl
      · rw [if_neg hk]

/-- C8: while a job is processing, the sequence of recorded progress values
over the modelled generation operation's tick stream is exactly k out of T
after k ticks — monotonically non-decreasing in the current unit — and the
total does not change once it has been reported. -/
theorem progress_monotone (s : SysState) (i : Nat) (j : Job) (T : Nat)
    (ha : s.activeId = some i) (hj : findJob s.jobs i = some j)
    (h0 : j.progress = 0) (ht : j.totalFrames = 0) :
    (∀ k : Nat, recordedProgress ((genTicks T k).foldl step s) i
        = some (k, if k = 0 then 0 else T))
    ∧ (∀ k k' : Nat, k ≤ k' →
        ∀ p p' : Nat × Nat,
          recordedProgress ((genTicks T k).foldl step s) i = some p →
          recordedProgress ((genTicks T k').foldl step s) i = some p' →
          p.1 ≤ p'.1 ∧ (0 < k → p.2 = p'.2)) := by
  have hrec : ∀ k : Nat, recordedProgress ((genTicks T k).foldl step s) i
      = some (k, if k = 0 then 0 else T) := by
    intro k
    have hk := (genTicks_run T ha hj k).2
    rw [recordedProgress, hk, Option.map_some']
    by_cases h : k = 0
    · rw [if_pos h, if_pos h]
      subst h
      rw [h0, ht]
    · rw [if_neg h, if_neg h]
  refine ⟨hrec, ?_⟩
  intro k k' hkk p p' hp hp'
  rw [hrec k, Option.some_inj] at hp
  rw [hrec k', Option.some_inj] at hp'
  subst hp
  subst hp'
  constructor
  · exact hkk
  · intro hk0
    have hkne : k ≠ 0 := Nat.pos_iff_ne_zero.mp hk0
    have hkne2 : k' ≠ 0 := by
      intro he
      rw [he] at hkk
      exact hkne (Nat.le_zero.mp hkk)
    rw [if_neg hkne, if_neg hkne2]

/-- Witness for C8: after five ticks of a 20-unit generation the recorded
progress is (5, 20), and it dominates the (3, 20) recorded after three. -/
theorem progress_monotone_witness :
    recordedProgress ((genTicks 20 5).foldl step
        (run [Event.submit 0 none "" "", Event.startNext])) 0
      = some (5, 20)
    ∧ recordedProgress ((genTicks 20 3).foldl step
        (run [Event.submit 0 none "" "", Event.startNext])) 0
      = some (3, 20) := by
  have hth := progress_monotone
    (run [Event.submit 0 none "" "", Event.startNext]) 0
    { id := 0, owner := 0, title := none, lyrics := "", tags := "",
      status := .processing, progress := 0, totalFrames := 0,
      createdAt := 0, failureReason := none } 20
    (by decide) (by decide) rfl rfl
  exact ⟨hth.1 5, hth.1 3⟩

/-- Witness for C1: two submissions and a start produce id order and start
order both strictly increasing. -/
theorem fifo_start_order_witness :
    ((run [Event.submit 0 none "" "", Event.submit 0 none "" "",
        Event.startNext]).jobs.map Job.id).Pairwise (· < ·)
    ∧ (run [Event.submit 0 none "" "", Event.submit 0 none "" "",
        Event.startNext]).started.Pairwise (· < ·) := by
  have hth := fifo_start_order
    [Event.submit 0 none "" "", Event.submit 0 none "" "", Event.startNext]
  exact ⟨hth.1, hth.2.1⟩

/-- Witness for C2: with one started job, at most one job is processing. -/
theorem single_active_job_witness :
    ((run [Event.submit 0 none "" "", Event.startNext]).jobs.filter
        (fun j => isProcessing j.status)).length ≤ 1 :=
  (single_active_job [Event.submit 0 none "" "", Event.startNext]).1

/-- Witness for C9: a concrete history page respects the page size bound. -/
theorem history_query_witness :
    (listHistory 1 1 10 none (run [Event.submit 1 none "aa" "bb",
        Event.startNext, Event.complete])).length ≤ 10 :=
  (history_query 1 1 10 none (run [Event.submit 1 none "aa" "bb",
    Event.startNext, Event.complete])).2.2.1

end Heartlib
